import Mathlib

/-!
Verification of the alternating-iterator library (crate `alternating-iter`).

The development shallowly embeds the three iterator adapters
(`Alternating`, `AlternatingAll`, `AlternatingNoRemainder`) and the shared
bound-arithmetic helpers of `src/utils.rs`.  Underlying iterators are
modelled as `List α`: polling (`Iterator::next`) returns `head?` and leaves
the tail, and polling an empty list keeps returning `none`, which matches
fused Rust iterators and in particular slice iterators used by the tests.
`usize` is modelled as `Nat` together with the explicit 64-bit maximum
`usizeMax`; `saturating_*` and `checked_*` operations carry the bound
explicitly.
-/

/-- Maximum value of a 64-bit `usize`, i.e. `2 ^ 64 - 1`. -/
def usizeMax : Nat := 18446744073709551615

/-- Model of `usize::checked_mul`. -/
def checkedMul (a b : Nat) : Option Nat :=
  if a * b ≤ usizeMax then some (a * b) else none

/-- Model of `usize::checked_add`. -/
def checkedAdd (a b : Nat) : Option Nat :=
  if a + b ≤ usizeMax then some (a + b) else none

/-- Model of `usize::saturating_mul`. -/
def saturatingMul (a b : Nat) : Nat := min (a * b) usizeMax

/-- Model of `usize::saturating_add`. -/
def saturatingAdd (a b : Nat) : Nat := min (a + b) usizeMax

/-- `utils::min_and_1` from `src/utils.rs`:
matches on `i.cmp(&j)` and returns the minimum together with the
"one extra element" bonus flag. -/
def min_and_1 (i j : Nat) (last_i : Bool) : Nat × Bool :=
  match compare i j with
  | Ordering.lt => (i, last_i)
  | Ordering.eq => (i, false)
  | Ordering.gt => (j, !last_i)

/-- `utils::saturating` from `src/utils.rs`:
`min.saturating_mul(2).saturating_add(add_one as usize)`. -/
def saturating : Nat × Bool → Nat
  | (mn, add_one) => saturatingAdd (saturatingMul mn 2) (cond add_one 1 0)

/-- `utils::checked` from `src/utils.rs`:
`min.checked_mul(2).and_then(|min| min.checked_add(add_one as usize))`. -/
def checked : Nat × Bool → Option Nat
  | (mn, add_one) => (checkedMul mn 2).bind fun m2 => checkedAdd m2 (cond add_one 1 0)

/-- On `Nat`, `compare` is `compareOfLessAndEq`; unfolded characterization. -/
theorem compare_nat_def (i j : Nat) :
    compare i j = if i < j then Ordering.lt else if i = j then Ordering.eq else Ordering.gt := rfl

/-- Full characterization of `min_and_1`, used by several claims below. -/
theorem min_and_1_eq (i j : Nat) (b : Bool) :
    min_and_1 i j b = (min i j, if i < j then b else if j < i then !b else false) := by
  unfold min_and_1
  rw [compare_nat_def]
  rcases Nat.lt_trichotomy i j with h | h | h
  · rw [if_pos h]
    simp [Nat.min_eq_left (Nat.le_of_lt h), h]
  · subst h
    simp
  · rw [if_neg (Nat.lt_asymm h), if_neg (Nat.ne_of_gt h)]
    simp [Nat.min_eq_right (Nat.le_of_lt h), h, Nat.lt_asymm h]

/-- C1 counterexample.  The claim states that when `min_left < min_right`
the bonus is true exactly when `last_was_left` is `false`.  At the concrete
input `min_left = 0 < 1 = min_right`, `last_was_left = false`, the code
returns bonus `false`, contradicting the claimed `true`. -/
theorem min_and_1_bonus_claim_false :
    0 < 1 ∧ (min_and_1 0 1 false).2 = false := by decide

/-- C1 (amended): `min_and_1` returns `m = min min_left min_right`; the
bonus is `false` on a tie; when `min_left < min_right` the bonus is true
exactly when `last_was_left` is TRUE (the longer right side is due next),
and symmetrically when `min_right < min_left` the bonus is true exactly
when `last_was_left` is false. -/
theorem min_and_1_spec (i j : Nat) (b : Bool) :
    (min_and_1 i j b).1 = min i j ∧
    (i = j → (min_and_1 i j b).2 = false) ∧
    (i < j → ((min_and_1 i j b).2 = true ↔ b = true)) ∧
    (j < i → ((min_and_1 i j b).2 = true ↔ b = false)) := by
  rw [min_and_1_eq]
  refine ⟨rfl, ?_, ?_, ?_⟩
  · intro h
    subst h
    simp
  · intro h
    simp [h]
  · intro h
    rw [if_neg (Nat.lt_asymm h), if_pos h]
    cases b <;> simp

/-- `Alternating` from `src/alternating.rs`: two iterators and the
`i_next` cursor.  A fresh adapter has `i_next = true`. -/
structure Alternating (α : Type) where
  i : List α
  j : List α
  i_next : Bool

/-- `Alternating::new(i, j)`. -/
def Alternating.new (i j : List α) : Alternating α := ⟨i, j, true⟩

/-- `<Alternating as Iterator>::next`: flip the cursor and poll the side
that was due, returning its result as-is. -/
def Alternating.next (s : Alternating α) : Option α × Alternating α :=
  if s.i_next then
    (s.i.head?, ⟨s.i.tail, s.j, false⟩)
  else
    (s.j.head?, ⟨s.i, s.j.tail, true⟩)

/-- Outputs of `n` successive calls to `Alternating::next`. -/
def Alternating.run (s : Alternating α) : Nat → List (Option α)
  | 0 => []
  | n + 1 =>
    let (o, s1) := s.next
    o :: s1.run n

/-- The `Next` cursor enum of `src/alternating_all.rs`. -/
inductive Next where
  | I
  | J
  | IAlways
  | JAlways
deriving DecidableEq

/-- `AlternatingAll` from `src/alternating_all.rs`.  The Rust field
holding the cursor is called `next`; here it is `nxt` because `next` is
used for the step function below. -/
structure AlternatingAll (α : Type) where
  i : List α
  j : List α
  nxt : Next

/-- `AlternatingAll::new(i, j)`. -/
def AlternatingAll.new (i j : List α) : AlternatingAll α := ⟨i, j, Next.I⟩

/-- `<AlternatingAll as Iterator>::next`: four-state machine; on
exhaustion of the due side it transitions to draining the other side and
immediately polls it. -/
def AlternatingAll.next (s : AlternatingAll α) : Option α × AlternatingAll α :=
  match s.nxt with
  | Next.I =>
    match s.i with
    | item :: rest => (some item, ⟨rest, s.j, Next.J⟩)
    | [] => (s.j.head?, ⟨s.i, s.j.tail, Next.JAlways⟩)
  | Next.J =>
    match s.j with
    | item :: rest => (some item, ⟨s.i, rest, Next.I⟩)
    | [] => (s.i.head?, ⟨s.i.tail, s.j, Next.IAlways⟩)
  | Next.IAlways => (s.i.head?, ⟨s.i.tail, s.j, Next.IAlways⟩)
  | Next.JAlways => (s.j.head?, ⟨s.i, s.j.tail, Next.JAlways⟩)

/-- Outputs of `n` successive calls to `AlternatingAll::next`. -/
def AlternatingAll.run (s : AlternatingAll α) : Nat → List (Option α)
  | 0 => []
  | n + 1 =>
    let (o, s1) := s.next
    o :: s1.run n

/-- `<AlternatingAll as ExactSizeIterator>::len`: plain `+` on `usize`,
modelled with release-mode wrapping arithmetic. -/
def AlternatingAll.len (s : AlternatingAll α) : Nat :=
  (s.i.length + s.j.length) % (usizeMax + 1)

/-- `AlternatingNoRemainder` from `src/alternating_no_remainder.rs`.
A fresh adapter has `last_i = false` (left due first). -/
structure AlternatingNoRemainder (α : Type) where
  i : List α
  j : List α
  last_i : Bool

/-- `AlternatingNoRemainder::new(i, j)`. -/
def AlternatingNoRemainder.new (i j : List α) : AlternatingNoRemainder α := ⟨i, j, false⟩

/-- `<AlternatingNoRemainder as Iterator>::next`: poll the due side; on
an item, flip the cursor and return it; on exhaustion return `none`
without touching the cursor or the other side. -/
def AlternatingNoRemainder.next (s : AlternatingNoRemainder α) :
    Option α × AlternatingNoRemainder α :=
  if s.last_i then
    match s.j with
    | item :: rest => (some item, ⟨s.i, rest, false⟩)
    | [] => (none, s)
  else
    match s.i with
    | item :: rest => (some item, ⟨rest, s.j, true⟩)
    | [] => (none, s)

/-- Outputs of `n` successive calls to `AlternatingNoRemainder::next`. -/
def AlternatingNoRemainder.run (s : AlternatingNoRemainder α) : Nat → List (Option α)
  | 0 => []
  | n + 1 =>
    let (o, s1) := s.next
    o :: s1.run n

/-- The size-hint pair a `List`-backed iterator reports: the hint of a
Rust slice iterator is exact. -/
def listHint (l : List α) : Nat × Option Nat := (l.length, some l.length)

/-- `Alternating::size_hint` (lines 54-75 of `src/alternating.rs`),
parametric in the hints reported by the two sub-iterators; `i_next` is
the adapter's cursor and `last_i = !i_next`. -/
def altSizeHint (ih jh : Nat × Option Nat) (i_next : Bool) : Nat × Option Nat :=
  let last_i := !i_next
  let lower := saturating (min_and_1 ih.1 jh.1 last_i)
  let upper :=
    match ih.2, jh.2 with
    | some iu, some ju => checked (min_and_1 iu ju last_i)
    | some iu, none => checked (iu, last_i)
    | none, some ju => checked (ju, !last_i)
    | none, none => none
  (lower, upper)

/-- `AlternatingNoRemainder::size_hint` (lines 58-78 of
`src/alternating_no_remainder.rs`), parametric in the sub-iterator
hints; `last_i` is the adapter's cursor. -/
def anrSizeHint (ih jh : Nat × Option Nat) (last_i : Bool) : Nat × Option Nat :=
  let lower := saturating (min_and_1 ih.1 jh.1 last_i)
  let upper :=
    match ih.2, jh.2 with
    | some iu, some ju => checked (min_and_1 iu ju last_i)
    | some iu, none => checked (iu, last_i)
    | none, some ju => checked (ju, !last_i)
    | none, none => none
  (lower, upper)

/-- `AlternatingAll::size_hint` (lines 76-83 of
`src/alternating_all.rs`): saturating sum of lowers, checked sum of
uppers. -/
def allSizeHint (ih jh : Nat × Option Nat) : Nat × Option Nat :=
  (saturatingAdd ih.1 jh.1,
    ih.2.bind fun iu => jh.2.bind fun ju => checkedAdd iu ju)

/-- Strict interleaving `l0, r0, l1, r1, ...` truncated at the shorter
list: the item sequence strict alternation produces. -/
def zipInterleave (l r : List α) : List α :=
  (l.zip r).bind fun p => [p.1, p.2]

/-- The item sequence `AlternatingAll` produces: alternate until one
side is empty, then append the remainder of the other side. -/
def mergeAll : List α → List α → List α
  | [], r => r
  | x :: l, r => x :: mergeAll r l
termination_by l r => l.length + r.length
decreasing_by simp [Nat.add_comm]; omega

/-- Number of items (`some` results) in a list of outputs. -/
def countSome (outs : List (Option α)) : Nat := (outs.filterMap id).length

/-- Number of items obtained before the first `none` output. -/
def countUntilNone (outs : List (Option α)) : Nat :=
  (outs.takeWhile fun o => o.isSome).length

theorem altRun_succ (s : Alternating α) (n : Nat) :
    s.run (n + 1) = (s.next).1 :: (s.next).2.run n := rfl

theorem allRun_succ (s : AlternatingAll α) (n : Nat) :
    s.run (n + 1) = (s.next).1 :: (s.next).2.run n := rfl

theorem anrRun_succ (s : AlternatingNoRemainder α) (n : Nat) :
    s.run (n + 1) = (s.next).1 :: (s.next).2.run n := rfl

/-- Mirrors the Rust test `alternating::tests::different_lengths_2more`. -/
theorem alternating_different_lengths_2more :
    (Alternating.new [1, 2] [3, 4, 5, 6]).run 9 =
      [some 1, some 3, some 2, some 4, none, some 5, none, some 6, none] := by decide

/-- Mirrors the Rust test `alternating_all::tests::one_empty_iterator`. -/
theorem alternating_all_one_empty :
    (AlternatingAll.new [1, 2, 3] []).run 4 = [some 1, some 2, some 3, none] := by decide

/-- Mirrors the Rust test `alternating_no_remainder::tests::one_empty_iterator`. -/
theorem alternating_no_remainder_one_empty :
    (AlternatingNoRemainder.new [1, 2, 3] []).run 3 = [some 1, none, none] := by decide

/-- Both sources exhausted: `Alternating` keeps reporting `none`. -/
theorem altRun_nil_nil (n : Nat) (b : Bool) :
    Alternating.run (⟨[], [], b⟩ : Alternating α) n = List.replicate n none := by
  induction n generalizing b with
  | zero => rfl
  | succ n ih =>
    cases b <;>
      simp [altRun_succ, Alternating.next, List.replicate_succ, ih]

/-- Strict phase of `Alternating`: while both sides have items, the
outputs interleave them pairwise. -/
theorem altRun_strict (n : Nat) :
    ∀ (l r : List α) (m : Nat), n ≤ l.length → n ≤ r.length →
      Alternating.run ⟨l, r, true⟩ (2 * n + m) =
        (zipInterleave (l.take n) (r.take n)).map some ++
          Alternating.run ⟨l.drop n, r.drop n, true⟩ m := by
  induction n with
  | zero =>
    intro l r m _ _
    simp [zipInterleave]
  | succ n ih =>
    intro l r m hl hr
    cases l with
    | nil => simp at hl
    | cons x l1 =>
      cases r with
      | nil => simp at hr
      | cons y r1 =>
        have hstep : 2 * (n + 1) + m = (2 * n + m) + 1 + 1 := by omega
        rw [hstep, altRun_succ, altRun_succ]
        simp only [Alternating.next, List.head?, List.tail, if_pos, if_neg,
          Bool.false_eq_true, ite_true, ite_false]
        rw [ih l1 r1 m (by simpa using hl) (by simpa using hr)]
        simp [zipInterleave, List.zip_cons_cons]

/-- Drain phase of `Alternating` with the left side exhausted: the right
side's items appear on every other call, each preceded by a `none`. -/
theorem altRun_drain_right (r : List α) :
    ∀ m : Nat,
      Alternating.run ⟨[], r, true⟩ (2 * r.length + m) =
        (r.bind fun y => [none, some y]) ++ Alternating.run ⟨[], [], true⟩ m := by
  induction r with
  | nil => intro m; simp
  | cons y r1 ih =>
    intro m
    have hstep : 2 * (y :: r1).length + m = (2 * r1.length + m) + 1 + 1 := by
      simp [List.length_cons]; omega
    rw [hstep, altRun_succ, altRun_succ]
    simp only [Alternating.next, List.head?, List.tail, ite_true, ite_false,
      Bool.false_eq_true]
    rw [ih m]
    simp

/-- Drain phase of `Alternating` with the right side exhausted: the left
side's items appear on every other call, each followed by a `none`. -/
theorem altRun_drain_left (l : List α) :
    ∀ m : Nat,
      Alternating.run ⟨l, [], true⟩ (2 * l.length + m) =
        (l.bind fun x => [some x, none]) ++ Alternating.run ⟨[], [], true⟩ m := by
  induction l with
  | nil => intro m; simp
  | cons x l1 ih =>
    intro m
    have hstep : 2 * (x :: l1).length + m = (2 * l1.length + m) + 1 + 1 := by
      simp [List.length_cons]; omega
    rw [hstep, altRun_succ, altRun_succ]
    simp only [Alternating.next, List.head?, List.tail, ite_true, ite_false,
      Bool.false_eq_true]
    rw [ih m]
    simp

/-- If `AlternatingNoRemainder::next` reports exhaustion, it leaves the
state completely unchanged. -/
theorem anrNext_none (s : AlternatingNoRemainder α) (h : (s.next).1 = none) :
    s.next = (none, s) := by
  obtain ⟨l, r, b⟩ := s
  cases b with
  | true =>
    cases r with
    | nil => rfl
    | cons y r1 => simp [AlternatingNoRemainder.next] at h
  | false =>
    cases l with
    | nil => rfl
    | cons x l1 => simp [AlternatingNoRemainder.next] at h

/-- From a state whose very next call reports exhaustion,
`AlternatingNoRemainder` reports exhaustion forever. -/
theorem anrRun_none_forever (s : AlternatingNoRemainder α) (h : (s.next).1 = none) :
    ∀ n : Nat, s.run n = List.replicate n none := by
  intro n
  induction n with
  | zero => rfl
  | succ n ih =>
    rw [anrRun_succ, anrNext_none s h, List.replicate_succ]
    exact congrArg (List.cons none) ih

/-- Strict phase of `AlternatingNoRemainder`: while both sides have
items, the outputs interleave them pairwise. -/
theorem anrRun_strict (n : Nat) :
    ∀ (l r : List α) (m : Nat), n ≤ l.length → n ≤ r.length →
      AlternatingNoRemainder.run ⟨l, r, false⟩ (2 * n + m) =
        (zipInterleave (l.take n) (r.take n)).map some ++
          AlternatingNoRemainder.run ⟨l.drop n, r.drop n, false⟩ m := by
  induction n with
  | zero =>
    intro l r m _ _
    simp [zipInterleave]
  | succ n ih =>
    intro l r m hl hr
    cases l with
    | nil => simp at hl
    | cons x l1 =>
      cases r with
      | nil => simp at hr
      | cons y r1 =>
        have hstep : 2 * (n + 1) + m = (2 * n + m) + 1 + 1 := by omega
        rw [hstep, anrRun_succ, anrRun_succ]
        simp only [AlternatingNoRemainder.next, ite_true, ite_false,
          Bool.false_eq_true]
        rw [ih l1 r1 m (by simpa using hl) (by simpa using hr)]
        simp [zipInterleave, List.zip_cons_cons]

/-- `AlternatingAll` in state `IAlways` with an exhausted left side only
reports `none`. -/
theorem allRun_IAlways_nil (r : List α) (k : Nat) :
    AlternatingAll.run ⟨[], r, Next.IAlways⟩ k = List.replicate k none := by
  induction k with
  | zero => rfl
  | succ k ih =>
    rw [allRun_succ]
    simp [AlternatingAll.next, List.replicate_succ, ih]

/-- `AlternatingAll` in state `JAlways` with an exhausted right side only
reports `none`. -/
theorem allRun_JAlways_nil (l : List α) (k : Nat) :
    AlternatingAll.run ⟨l, [], Next.JAlways⟩ k = List.replicate k none := by
  induction k with
  | zero => rfl
  | succ k ih =>
    rw [allRun_succ]
    simp [AlternatingAll.next, List.replicate_succ, ih]

/-- `AlternatingAll` in state `IAlways` drains the left side
contiguously, then reports `none` forever. -/
theorem allRun_IAlways (l : List α) :
    ∀ (r : List α) (k : Nat),
      AlternatingAll.run ⟨l, r, Next.IAlways⟩ (l.length + k) =
        l.map some ++ List.replicate k none := by
  induction l with
  | nil => intro r k; simpa using allRun_IAlways_nil r k
  | cons x l1 ih =>
    intro r k
    have hstep : (x :: l1).length + k = (l1.length + k) + 1 := by
      simp [List.length_cons]; omega
    rw [hstep, allRun_succ]
    simp [AlternatingAll.next, ih r k]

/-- `AlternatingAll` in state `JAlways` drains the right side
contiguously, then reports `none` forever. -/
theorem allRun_JAlways (r : List α) :
    ∀ (l : List α) (k : Nat),
      AlternatingAll.run ⟨l, r, Next.JAlways⟩ (r.length + k) =
        r.map some ++ List.replicate k none := by
  induction r with
  | nil => intro l k; simpa using allRun_JAlways_nil l k
  | cons y r1 ih =>
    intro l k
    have hstep : (y :: r1).length + k = (r1.length + k) + 1 := by
      simp [List.length_cons]; omega
    rw [hstep, allRun_succ]
    simp [AlternatingAll.next, ih l k]

/-- Fully exhausted `AlternatingAll` in state `I` only reports `none`. -/
theorem allRun_nil_nil_I (k : Nat) :
    AlternatingAll.run (⟨[], [], Next.I⟩ : AlternatingAll α) k = List.replicate k none := by
  cases k with
  | zero => rfl
  | succ k =>
    rw [allRun_succ]
    simp [AlternatingAll.next, List.replicate_succ, allRun_JAlways_nil]

/-- Fully exhausted `AlternatingAll` in state `J` only reports `none`. -/
theorem allRun_nil_nil_J (k : Nat) :
    AlternatingAll.run (⟨[], [], Next.J⟩ : AlternatingAll α) k = List.replicate k none := by
  cases k with
  | zero => rfl
  | succ k =>
    rw [allRun_succ]
    simp [AlternatingAll.next, List.replicate_succ, allRun_IAlways_nil]

theorem mergeAll_nil (r : List α) : mergeAll [] r = r := by
  simp [mergeAll]

theorem mergeAll_cons (x : α) (l r : List α) :
    mergeAll (x :: l) r = x :: mergeAll r l := by
  simp [mergeAll]

/-- Closed form for `AlternatingAll` from the alternation states: both
sides are merged by `mergeAll`, all items are emitted contiguously, and
afterwards every call reports `none`. -/
theorem allRun_IJ (fuel : Nat) :
    ∀ (l r : List α) (k : Nat), l.length + r.length ≤ fuel →
      (AlternatingAll.run ⟨l, r, Next.I⟩ (l.length + r.length + k) =
        (mergeAll l r).map some ++ List.replicate k none) ∧
      (AlternatingAll.run ⟨l, r, Next.J⟩ (l.length + r.length + k) =
        (mergeAll r l).map some ++ List.replicate k none) := by
  induction fuel with
  | zero =>
    intro l r k hfuel
    have hl : l = [] := by
      cases l with
      | nil => rfl
      | cons x l1 => simp [List.length_cons] at hfuel
    have hr : r = [] := by
      cases r with
      | nil => rfl
      | cons y r1 => simp [List.length_cons] at hfuel
    subst hl; subst hr
    constructor
    · simp [mergeAll_nil, allRun_nil_nil_I]
    · simp [mergeAll_nil, allRun_nil_nil_J]
  | succ fuel ih =>
    intro l r k hfuel
    constructor
    · cases l with
      | nil =>
        cases r with
        | nil => simp [mergeAll_nil, allRun_nil_nil_I]
        | cons y r1 =>
          have hstep : ([] : List α).length + (y :: r1).length + k = (r1.length + k) + 1 := by
            simp [List.length_cons]; omega
          rw [hstep, allRun_succ]
          simp [AlternatingAll.next, mergeAll_nil, allRun_JAlways r1 [] k]
      | cons x l1 =>
        have hstep : (x :: l1).length + r.length + k = (l1.length + r.length + k) + 1 := by
          simp [List.length_cons]; omega
        rw [hstep, allRun_succ]
        have hih := (ih l1 r k (by simp [List.length_cons] at hfuel; omega)).2
        simp [AlternatingAll.next, mergeAll_cons, hih]
    · cases r with
      | nil =>
        cases l with
        | nil => simp [mergeAll_nil, allRun_nil_nil_J]
        | cons x l1 =>
          have hstep : (x :: l1).length + ([] : List α).length + k = (l1.length + k) + 1 := by
            simp [List.length_cons]; omega
          rw [hstep, allRun_succ]
          simp [AlternatingAll.next, mergeAll_nil, allRun_IAlways l1 [] k]
      | cons y r1 =>
        have hstep : l.length + (y :: r1).length + k = (l.length + r1.length + k) + 1 := by
          simp [List.length_cons]; omega
        rw [hstep, allRun_succ]
        have hih := (ih l r1 k (by simp [List.length_cons] at hfuel; omega)).1
        simp [AlternatingAll.next, mergeAll_cons, hih]

theorem countSome_append (xs ys : List (Option α)) :
    countSome (xs ++ ys) = countSome xs + countSome ys := by
  simp [countSome, List.filterMap_append]

theorem countSome_map_some (xs : List α) : countSome (xs.map some) = xs.length := by
  induction xs with
  | nil => rfl
  | cons x xs ih => simp_all [countSome, List.filterMap_cons]

theorem countSome_replicate_none (n : Nat) :
    countSome (List.replicate n (none : Option α)) = 0 := by
  induction n with
  | zero => rfl
  | succ n ih => simp_all [countSome, List.replicate_succ, List.filterMap_cons]

theorem countSome_bind_none_some (r : List α) :
    countSome (r.bind fun y => [none, some y]) = r.length := by
  induction r with
  | nil => rfl
  | cons y r1 ih =>
    simp [countSome, List.filterMap_cons] at ih ⊢
    exact ih

theorem countSome_bind_some_none (l : List α) :
    countSome (l.bind fun x => [some x, none]) = l.length := by
  induction l with
  | nil => rfl
  | cons x l1 ih =>
    simp [countSome, List.filterMap_cons] at ih ⊢
    exact ih

theorem length_zipInterleave (l : List α) :
    ∀ r : List α, (zipInterleave l r).length = 2 * min l.length r.length := by
  induction l with
  | nil => intro r; simp [zipInterleave]
  | cons x l1 ih =>
    intro r
    cases r with
    | nil => simp [zipInterleave]
    | cons y r1 =>
      simp [zipInterleave, List.zip_cons_cons] at ih ⊢
      rw [ih r1]
      omega

theorem length_mergeAll_fuel (fuel : Nat) :
    ∀ l r : List α, l.length + r.length ≤ fuel →
      (mergeAll l r).length = l.length + r.length := by
  induction fuel with
  | zero =>
    intro l r hfuel
    cases l with
    | nil => simp [mergeAll_nil]
    | cons x l1 => simp [List.length_cons] at hfuel
  | succ fuel ih =>
    intro l r hfuel
    cases l with
    | nil => simp [mergeAll_nil]
    | cons x l1 =>
      rw [mergeAll_cons]
      simp only [List.length_cons]
      rw [ih r l1 (by simp [List.length_cons] at hfuel; omega)]
      omega

theorem length_mergeAll (l r : List α) :
    (mergeAll l r).length = l.length + r.length :=
  length_mergeAll_fuel (l.length + r.length) l r (Nat.le_refl _)

theorem mergeAll_eq_zipInterleave_fuel (fuel : Nat) :
    ∀ l r : List α, l.length = r.length → l.length + r.length ≤ fuel →
      mergeAll l r = zipInterleave l r := by
  induction fuel with
  | zero =>
    intro l r hlen hfuel
    cases l with
    | nil =>
      cases r with
      | nil => simp [mergeAll_nil, zipInterleave]
      | cons y r1 => simp at hlen
    | cons x l1 => simp [List.length_cons] at hfuel
  | succ fuel ih =>
    intro l r hlen hfuel
    cases l with
    | nil =>
      cases r with
      | nil => simp [mergeAll_nil, zipInterleave]
      | cons y r1 => simp at hlen
    | cons x l1 =>
      cases r with
      | nil => simp at hlen
      | cons y r1 =>
        rw [mergeAll_cons, mergeAll_cons]
        have hlen1 : l1.length = r1.length := by simpa using hlen
        have hih := ih l1 r1 hlen1 (by simp [List.length_cons] at hfuel; omega)
        rw [hih]
        simp [zipInterleave, List.zip_cons_cons]

theorem countUntilNone_map_some_append (xs : List α) (ys : List (Option α)) :
    countUntilNone (xs.map some ++ ys) = xs.length + countUntilNone ys := by
  induction xs with
  | nil => simp [countUntilNone]
  | cons x xs ih =>
    simp [countUntilNone, List.takeWhile] at ih ⊢
    omega

theorem countUntilNone_none_cons (ys : List (Option α)) :
    countUntilNone (none :: ys) = 0 := rfl

theorem countUntilNone_some_cons (x : α) (ys : List (Option α)) :
    countUntilNone (some x :: ys) = countUntilNone ys + 1 := by
  simp [countUntilNone, List.takeWhile]

theorem countUntilNone_replicate_none (n : Nat) :
    countUntilNone (List.replicate n (none : Option α)) = 0 := by
  cases n with
  | zero => rfl
  | succ n => rw [List.replicate_succ]; rfl

/-- C3: for `|l| = a ≤ |r| = b`, a fresh `Alternating` adapter emits the
strict interleaving of the first `a` items of each side, then the
remaining `b - a` right items one per every other call, each preceded by
a single `none`, then only `none`; the total number of items over all
calls is `a + b`. -/
theorem alternating_total_and_half_rate (l r : List α) (k : Nat)
    (h : l.length ≤ r.length) :
    Alternating.run ⟨l, r, true⟩ (2 * r.length + k) =
      (zipInterleave l (r.take l.length)).map some ++
        ((r.drop l.length).bind fun y => [none, some y]) ++ List.replicate k none ∧
    countSome (Alternating.run ⟨l, r, true⟩ (2 * r.length + k)) =
      l.length + r.length := by
  have hsplit : 2 * r.length + k = 2 * l.length + (2 * (r.length - l.length) + k) := by
    omega
  have hdlen : 2 * (r.length - l.length) + k = 2 * (r.drop l.length).length + k := by
    rw [List.length_drop]
  have hrun : Alternating.run ⟨l, r, true⟩ (2 * r.length + k) =
      (zipInterleave l (r.take l.length)).map some ++
        ((r.drop l.length).bind fun y => [none, some y]) ++ List.replicate k none := by
    rw [hsplit, altRun_strict l.length l r _ (Nat.le_refl _) h, List.take_length,
      List.drop_length, hdlen, altRun_drain_right (r.drop l.length) k,
      altRun_nil_nil k true, List.append_assoc]
  refine ⟨hrun, ?_⟩
  rw [hrun, countSome_append, countSome_append, countSome_map_some,
    countSome_bind_none_some, countSome_replicate_none, length_zipInterleave,
    List.length_take, List.length_drop]
  omega

/-- C3 witness at `l = [1]`, `r = [2, 3]`, `k = 2`. -/
theorem alternating_total_and_half_rate_witness :
    ([1] : List Nat).length ≤ [2, 3].length ∧
    (Alternating.run ⟨[1], [2, 3], true⟩ (2 * [2, 3].length + 2) =
      (zipInterleave [1] ([2, 3].take [1].length)).map some ++
        (([2, 3].drop [1].length).bind fun y => [none, some y]) ++
          List.replicate 2 none ∧
    countSome (Alternating.run ⟨[1], [2, 3], true⟩ (2 * [2, 3].length + 2)) =
      [1].length + [2, 3].length) :=
  ⟨by decide, alternating_total_and_half_rate [1] [2, 3] 2 (by decide)⟩

/-- C4: a fresh `AlternatingAll` adapter alternates while both sides
yield, drains the survivor contiguously (its items are exactly
`mergeAll l r`, with no interleaved `none`), and afterwards every call
reports `none`; `a + b` items in total. -/
theorem alternating_all_contiguous (l r : List α) (k : Nat) :
    AlternatingAll.run ⟨l, r, Next.I⟩ (l.length + r.length + k) =
      (mergeAll l r).map some ++ List.replicate k none ∧
    countSome (AlternatingAll.run ⟨l, r, Next.I⟩ (l.length + r.length + k)) =
      l.length + r.length := by
  have h := (allRun_IJ (l.length + r.length) l r k (Nat.le_refl _)).1
  refine ⟨h, ?_⟩
  rw [h, countSome_append, countSome_map_some, countSome_replicate_none,
    length_mergeAll]
  omega

/-- C5: `AlternatingNoRemainder` is fused: from any state whose next
call reports `none`, every call reports `none` and no item is ever
produced again, even if the other side still has items. -/
theorem alternating_no_remainder_sticky (s : AlternatingNoRemainder α)
    (h : (s.next).1 = none) :
    ∀ n : Nat, s.run n = List.replicate n none :=
  anrRun_none_forever s h

/-- C5 witness: left exhausted while the right side still holds an item. -/
theorem alternating_no_remainder_sticky_witness :
    ((⟨[], [7], false⟩ : AlternatingNoRemainder Nat).next).1 = none ∧
    (⟨[], [7], false⟩ : AlternatingNoRemainder Nat).run 4 = List.replicate 4 none :=
  ⟨rfl, alternating_no_remainder_sticky ⟨[], [7], false⟩ rfl 4⟩

/-- C6: for equal-length sources all three fresh adapters emit the same
`2N` items in strict order `l0, r0, l1, r1, ...` and afterwards only
`none`. -/
theorem equal_lengths_all_variants (l r : List α) (k : Nat)
    (h : l.length = r.length) :
    Alternating.run ⟨l, r, true⟩ (2 * l.length + k) =
      (zipInterleave l r).map some ++ List.replicate k none ∧
    AlternatingAll.run ⟨l, r, Next.I⟩ (2 * l.length + k) =
      (zipInterleave l r).map some ++ List.replicate k none ∧
    AlternatingNoRemainder.run ⟨l, r, false⟩ (2 * l.length + k) =
      (zipInterleave l r).map some ++ List.replicate k none := by
  have hle : l.length ≤ r.length := by omega
  refine ⟨?_, ?_, ?_⟩
  · rw [altRun_strict l.length l r k (Nat.le_refl _) hle, List.take_length,
      List.drop_length]
    have ht : r.take l.length = r := by rw [h, List.take_length]
    have hd : r.drop l.length = [] := by rw [h, List.drop_length]
    rw [ht, hd, altRun_nil_nil k true]
  · have hn : 2 * l.length + k = l.length + r.length + k := by omega
    rw [hn, (allRun_IJ (l.length + r.length) l r k (Nat.le_refl _)).1,
      mergeAll_eq_zipInterleave_fuel (l.length + r.length) l r h (Nat.le_refl _)]
  · rw [anrRun_strict l.length l r k (Nat.le_refl _) hle, List.take_length,
      List.drop_length]
    have ht : r.take l.length = r := by rw [h, List.take_length]
    have hd : r.drop l.length = [] := by rw [h, List.drop_length]
    rw [ht, hd, anrRun_none_forever ⟨[], [], false⟩ rfl k]

/-- C6 witness at `l = [1, 2]`, `r = [3, 4]`, `k = 2`. -/
theorem equal_lengths_all_variants_witness :
    ([1, 2] : List Nat).length = [3, 4].length ∧
    (Alternating.run ⟨[1, 2], [3, 4], true⟩ (2 * [1, 2].length + 2) =
      (zipInterleave [1, 2] [3, 4]).map some ++ List.replicate 2 none ∧
    AlternatingAll.run ⟨[1, 2], [3, 4], Next.I⟩ (2 * [1, 2].length + 2) =
      (zipInterleave [1, 2] [3, 4]).map some ++ List.replicate 2 none ∧
    AlternatingNoRemainder.run ⟨[1, 2], [3, 4], false⟩ (2 * [1, 2].length + 2) =
      (zipInterleave [1, 2] [3, 4]).map some ++ List.replicate 2 none) :=
  ⟨by decide, equal_lengths_all_variants [1, 2] [3, 4] 2 (by decide)⟩

/-- C7 counterexample.  The claim says that with one side empty and the
other holding `k ≥ 1` items a fresh `AlternatingNoRemainder` yields
exactly one item regardless of which side is empty.  With the LEFT side
empty and the right side holding one item, the very first call reports
`none` and no item is ever produced: zero items, not one. -/
theorem anr_left_empty_yields_nothing :
    (AlternatingNoRemainder.new ([] : List Nat) [5]).run 3 = [none, none, none] ∧
    countSome ((AlternatingNoRemainder.new ([] : List Nat) [5]).run 3) = 0 := by
  decide

/-- C7 (amended): with the RIGHT side empty and the left side holding
`k ≥ 1` items, a fresh `AlternatingNoRemainder` yields exactly one item
(the first left item) and then reports `none` forever; with the LEFT
side empty it yields no item at all, regardless of how many items the
right side holds. -/
theorem anr_one_side_empty (x : α) (l1 r : List α) (n : Nat) :
    (AlternatingNoRemainder.new (x :: l1) []).run (n + 1) =
      some x :: List.replicate n none ∧
    countSome ((AlternatingNoRemainder.new (x :: l1) []).run (n + 1)) = 1 ∧
    (AlternatingNoRemainder.new ([] : List α) r).run n = List.replicate n none ∧
    countSome ((AlternatingNoRemainder.new ([] : List α) r).run n) = 0 := by
  have h1 : (AlternatingNoRemainder.new (x :: l1) ([] : List α)).run (n + 1) =
      some x :: List.replicate n none := by
    rw [anrRun_succ]
    show some x :: AlternatingNoRemainder.run ⟨l1, [], true⟩ n =
      some x :: List.replicate n none
    rw [anrRun_none_forever ⟨l1, [], true⟩ rfl n]
  have h2 : (AlternatingNoRemainder.new ([] : List α) r).run n =
      List.replicate n none :=
    anrRun_none_forever ⟨[], r, false⟩ rfl n
  refine ⟨h1, ?_, h2, ?_⟩
  · rw [h1]
    simp [countSome, List.filterMap_cons]
  · rw [h2]
    exact countSome_replicate_none n

/-- `utils::checked` as a single guarded expression. -/
theorem checked_eq (m : Nat) (c : Bool) :
    checked (m, c) =
      if 2 * m + cond c 1 0 ≤ usizeMax then some (2 * m + cond c 1 0) else none := by
  have hdef : checked (m, c) =
      (if m * 2 ≤ usizeMax then some (m * 2) else none).bind
        (fun m2 => if m2 + cond c 1 0 ≤ usizeMax then some (m2 + cond c 1 0) else none) := rfl
  rw [hdef]
  rcases le_or_lt (m * 2) usizeMax with h1 | h1
  · rw [if_pos h1, Option.some_bind]
    rw [Nat.mul_comm m 2]
  · rw [if_neg (Nat.not_le_of_lt h1), Option.none_bind, if_neg]
    cases c <;> simp only [cond] <;> omega

/-- C2 counterexample.  Bounded left side with `bound = 0`, unbounded
right side, fresh `Alternating` adapter (`i_next = true`, so the bounded
side is currently due).  The claim predicts `some (2 * 0 + 1)`; the code
returns `some (2 * 0)`. -/
theorem size_hint_one_bounded_claim_false :
    (altSizeHint (0, some 0) (0, none) true).2 = some (2 * 0) ∧
    (altSizeHint (0, some 0) (0, none) true).2 ≠ some (2 * 0 + 1) := by
  decide

/-- C2 (amended): when exactly one side reports a known maximum `bound`
and the other reports none, the combined maximum is
`2 * bound + 1` when the bounded side is currently NOT due (the
unbounded side is due) and `2 * bound` when the bounded side is due,
`none` when that value exceeds `usizeMax`.  For `Alternating` the cursor
argument is `i_next` (left due iff `b = true`); for
`AlternatingNoRemainder` it is `last_i` (left due iff `b = false`).  In
each of the four cases below the added bonus is `0` exactly when the
bounded side is due. -/
theorem size_hint_one_bounded (il jl bound : Nat) (b : Bool) :
    (altSizeHint (il, some bound) (jl, none) b).2 =
      (if 2 * bound + cond b 0 1 ≤ usizeMax then some (2 * bound + cond b 0 1)
        else none) ∧
    (altSizeHint (il, none) (jl, some bound) b).2 =
      (if 2 * bound + cond b 1 0 ≤ usizeMax then some (2 * bound + cond b 1 0)
        else none) ∧
    (anrSizeHint (il, some bound) (jl, none) b).2 =
      (if 2 * bound + cond b 1 0 ≤ usizeMax then some (2 * bound + cond b 1 0)
        else none) ∧
    (anrSizeHint (il, none) (jl, some bound) b).2 =
      (if 2 * bound + cond b 0 1 ≤ usizeMax then some (2 * bound + cond b 0 1)
        else none) := by
  refine ⟨?_, ?_, ?_, ?_⟩ <;> cases b <;>
    simp [altSizeHint, anrSizeHint, checked_eq]

/-- A pull-based source instrumented with a poll counter, to make "is
polled exactly once" observable. -/
structure PollSrc (α : Type) where
  items : List α
  polls : Nat

/-- Polling an instrumented source: returns the head and bumps the
counter (also when the source is exhausted). -/
def PollSrc.next (s : PollSrc α) : Option α × PollSrc α :=
  (s.items.head?, ⟨s.items.tail, s.polls + 1⟩)

/-- `Alternating` over instrumented sources; same control flow as
`Alternating.next`. -/
structure AlternatingPolls (α : Type) where
  i : PollSrc α
  j : PollSrc α
  i_next : Bool

/-- `Alternating::next` over instrumented sources. -/
def AlternatingPolls.next (s : AlternatingPolls α) : Option α × AlternatingPolls α :=
  if s.i_next then
    let (o, i1) := s.i.next
    (o, ⟨i1, s.j, false⟩)
  else
    let (o, j1) := s.j.next
    (o, ⟨s.i, j1, true⟩)

/-- The instrumented step agrees with `Alternating.next` on outputs and
list states, so the instrumentation is observation-only. -/
theorem alternatingPolls_agrees (l r : List α) (ci cj : Nat) (b : Bool) :
    (AlternatingPolls.next ⟨⟨l, ci⟩, ⟨r, cj⟩, b⟩).1 = (Alternating.next ⟨l, r, b⟩).1 ∧
    (AlternatingPolls.next ⟨⟨l, ci⟩, ⟨r, cj⟩, b⟩).2.i.items =
      (Alternating.next ⟨l, r, b⟩).2.i ∧
    (AlternatingPolls.next ⟨⟨l, ci⟩, ⟨r, cj⟩, b⟩).2.j.items =
      (Alternating.next ⟨l, r, b⟩).2.j ∧
    (AlternatingPolls.next ⟨⟨l, ci⟩, ⟨r, cj⟩, b⟩).2.i_next =
      (Alternating.next ⟨l, r, b⟩).2.i_next := by
  cases b <;> simp [AlternatingPolls.next, Alternating.next, PollSrc.next]

/-- C9: every call to `Alternating::next` flips the cursor
unconditionally and polls exactly the due side exactly once — whether or
not it yields an item — while the other side is completely unchanged. -/
theorem alternating_next_polls_due_side_once (s : AlternatingPolls α) :
    (s.next).2.i_next = !s.i_next ∧
    (s.next).1 = (if s.i_next then s.i.items.head? else s.j.items.head?) ∧
    (s.next).2.i =
      (if s.i_next then (⟨s.i.items.tail, s.i.polls + 1⟩ : PollSrc α) else s.i) ∧
    (s.next).2.j =
      (if s.i_next then s.j else (⟨s.j.items.tail, s.j.polls + 1⟩ : PollSrc α)) ∧
    (s.next).2.i.polls + (s.next).2.j.polls = s.i.polls + s.j.polls + 1 := by
  obtain ⟨i, j, b⟩ := s
  cases b <;> simp [AlternatingPolls.next, PollSrc.next] <;> omega

/-- C10: `AlternatingAll::len` adds the two exact lengths with plain
(wrapping, unguarded) `usize` addition; it equals the number of items a
fresh adapter actually yields if and only if `|l| + |r|` does not
overflow `usize`. -/
theorem alternating_all_len_exact_iff_no_overflow (l r : List α) :
    AlternatingAll.len ⟨l, r, Next.I⟩ =
      countSome (AlternatingAll.run ⟨l, r, Next.I⟩ (l.length + r.length + 1)) ↔
    l.length + r.length ≤ usizeMax := by
  have hrun := (allRun_IJ (l.length + r.length) l r 1 (Nat.le_refl _)).1
  have hcount : countSome (AlternatingAll.run ⟨l, r, Next.I⟩ (l.length + r.length + 1)) =
      l.length + r.length := by
    rw [hrun, countSome_append, countSome_map_some, countSome_replicate_none,
      length_mergeAll]
    omega
  rw [hcount]
  show (l.length + r.length) % (usizeMax + 1) = l.length + r.length ↔
    l.length + r.length ≤ usizeMax
  have hm : usizeMax = 18446744073709551615 := rfl
  rw [hm]
  omega

/-- C1 amended-claim witness at `min_left = 2 < 5 = min_right`,
`last_was_left = true`. -/
theorem min_and_1_spec_witness :
    (min_and_1 2 5 true).1 = min 2 5 ∧
    (2 = 5 → (min_and_1 2 5 true).2 = false) ∧
    (2 < 5 → ((min_and_1 2 5 true).2 = true ↔ true = true)) ∧
    (5 < 2 → ((min_and_1 2 5 true).2 = true ↔ true = false)) :=
  min_and_1_spec 2 5 true

/-- C10 witness at `l = [1, 2]`, `r = [3]`. -/
theorem alternating_all_len_exact_witness :
    (AlternatingAll.len ⟨[1, 2], [3], Next.I⟩ =
      countSome (AlternatingAll.run (⟨[1, 2], [3], Next.I⟩ : AlternatingAll Nat)
        ([1, 2].length + [3].length + 1)) ↔
      ([1, 2] : List Nat).length + [3].length ≤ usizeMax) :=
  alternating_all_len_exact_iff_no_overflow [1, 2] [3]

/-- Items a fresh `Alternating` adapter yields before its first `none`:
`2 * min(a, b)`, plus one more when the left side is strictly longer
(its extra item is returned before the right side's exhaustion is
observed). -/
theorem altCountUntilNone (l r : List α) :
    countUntilNone (Alternating.run ⟨l, r, true⟩ (2 * (l.length + r.length) + 2)) =
      2 * min l.length r.length + (if r.length < l.length then 1 else 0) := by
  rcases le_or_lt l.length r.length with hle | hlt
  · have hsplit : 2 * (l.length + r.length) + 2 =
        2 * l.length + (2 * (r.drop l.length).length + (2 * l.length + 2)) := by
      rw [List.length_drop]; omega
    rw [hsplit, altRun_strict l.length l r _ (Nat.le_refl _) hle, List.take_length,
      List.drop_length, altRun_drain_right (r.drop l.length) _, altRun_nil_nil,
      if_neg (by omega : ¬ r.length < l.length)]
    rcases Nat.lt_or_ge l.length r.length with hlt2 | hge2
    · have hdl : (r.drop l.length).length = r.length - l.length := List.length_drop _ _
    
      cases hr : r.drop l.length with
      | nil =>
        exfalso
        rw [hr] at hdl
        simp at hdl
        omega
      | cons y t =>
        rw [countUntilNone_map_some_append]
        have hbind : ((y :: t).bind fun y => [(none : Option α), some y]) ++
            List.replicate (2 * l.length + 2) (none : Option α) =
            none :: (some y :: (t.bind fun y => [(none : Option α), some y]) ++
              List.replicate (2 * l.length + 2) none) := by
          simp
        rw [hbind, countUntilNone_none_cons, length_zipInterleave, List.length_take]
        omega
    · have heq : l.length = r.length := by omega
      have hdr : r.drop l.length = [] := by rw [heq, List.drop_length]
      rw [hdr]
      simp only [List.nil_bind, List.nil_append]
      rw [countUntilNone_map_some_append, countUntilNone_replicate_none,
        length_zipInterleave, List.length_take]
      omega
  · have hsplit : 2 * (l.length + r.length) + 2 =
        2 * r.length + (2 * (l.drop r.length).length + (2 * r.length + 2)) := by
      rw [List.length_drop]; omega
    rw [hsplit, altRun_strict r.length l r _ (Nat.le_of_lt hlt) (Nat.le_refl _),
      List.take_length, List.drop_length, altRun_drain_left (l.drop r.length) _,
      altRun_nil_nil, if_pos hlt]
    have hdl : (l.drop r.length).length = l.length - r.length := List.length_drop _ _
    cases hl : l.drop r.length with
    | nil =>
      exfalso
      rw [hl] at hdl
      simp at hdl
      omega
    | cons x t =>
      rw [countUntilNone_map_some_append]
      have hbind : ((x :: t).bind fun x => [some x, (none : Option α)]) ++
          List.replicate (2 * r.length + 2) (none : Option α) =
          some x :: none :: ((t.bind fun x => [some x, (none : Option α)]) ++
            List.replicate (2 * r.length + 2) none) := by
        simp
      rw [hbind, countUntilNone_some_cons, countUntilNone_none_cons,
        length_zipInterleave, List.length_take]
      omega

/-- Items a fresh `AlternatingNoRemainder` adapter yields before its
first `none`: same count as `Alternating`, since the two behave
identically up to the first exhaustion. -/
theorem anrCountUntilNone (l r : List α) :
    countUntilNone
        (AlternatingNoRemainder.run ⟨l, r, false⟩ (2 * (l.length + r.length) + 2)) =
      2 * min l.length r.length + (if r.length < l.length then 1 else 0) := by
  rcases le_or_lt l.length r.length with hle | hlt
  · have hsplit : 2 * (l.length + r.length) + 2 =
        2 * l.length + (2 * r.length + 2) := by omega
    rw [hsplit, anrRun_strict l.length l r _ (Nat.le_refl _) hle, List.take_length,
      List.drop_length, anrRun_none_forever ⟨[], r.drop l.length, false⟩ rfl,
      countUntilNone_map_some_append, countUntilNone_replicate_none,
      length_zipInterleave, List.length_take, if_neg (by omega : ¬ r.length < l.length)]
    omega
  · have hsplit : 2 * (l.length + r.length) + 2 =
        2 * r.length + ((2 * l.length + 1) + 1) := by omega
    rw [hsplit, anrRun_strict r.length l r _ (Nat.le_of_lt hlt) (Nat.le_refl _),
      List.take_length, List.drop_length]
    have hdl : (l.drop r.length).length = l.length - r.length := List.length_drop _ _
    cases hl : l.drop r.length with
    | nil =>
      exfalso
      rw [hl] at hdl
      simp at hdl
      omega
    | cons x t =>
      have h2 : AlternatingNoRemainder.run ⟨x :: t, [], false⟩ ((2 * l.length + 1) + 1) =
          some x :: List.replicate (2 * l.length + 1) none := by
        rw [anrRun_succ]
        show some x :: AlternatingNoRemainder.run ⟨t, [], true⟩ (2 * l.length + 1) =
          some x :: List.replicate (2 * l.length + 1) none
        rw [anrRun_none_forever ⟨t, [], true⟩ rfl]
      rw [h2, countUntilNone_map_some_append, countUntilNone_some_cons,
        countUntilNone_replicate_none, length_zipInterleave, List.length_take,
        if_pos hlt]
      omega

/-- Items a fresh `AlternatingAll` adapter yields before its first
`none`: always `|l| + |r|`. -/
theorem allCountUntilNone (l r : List α) :
    countUntilNone (AlternatingAll.run ⟨l, r, Next.I⟩ (2 * (l.length + r.length) + 2)) =
      l.length + r.length := by
  have hsplit : 2 * (l.length + r.length) + 2 =
      l.length + r.length + (l.length + r.length + 2) := by omega
  rw [hsplit, (allRun_IJ (l.length + r.length) l r _ (Nat.le_refl _)).1,
    countUntilNone_map_some_append, countUntilNone_replicate_none, length_mergeAll]
  omega

/-- Inversion for `utils::checked`: a `some` result is the unguarded
value. -/
theorem checked_some (m : Nat) (c : Bool) (u : Nat) (h : checked (m, c) = some u) :
    u = 2 * m + cond c 1 0 := by
  rw [checked_eq] at h
  by_cases h1 : 2 * m + cond c 1 0 ≤ usizeMax
  · rw [if_pos h1] at h
    exact (Option.some.inj h).symm
  · rw [if_neg h1] at h
    cases h

/-- Inversion for `checked_add`. -/
theorem checkedAdd_some (a b u : Nat) (h : checkedAdd a b = some u) : u = a + b := by
  have hd : checkedAdd a b = if a + b ≤ usizeMax then some (a + b) else none := rfl
  rw [hd] at h
  by_cases h1 : a + b ≤ usizeMax
  · rw [if_pos h1] at h
    exact (Option.some.inj h).symm
  · rw [if_neg h1] at h
    cases h

/-- C8: for exact (list-backed) sources, whenever a fresh adapter's
`size_hint` reports a known maximum `u`, then `u` equals the number of
items actually obtained by calling the adapter until the first `none`,
for each of the three variants. -/
theorem size_hint_upper_matches_count (l r : List α) :
    (∀ u, (altSizeHint (listHint l) (listHint r) true).2 = some u →
      u = countUntilNone
        (Alternating.run ⟨l, r, true⟩ (2 * (l.length + r.length) + 2))) ∧
    (∀ u, (anrSizeHint (listHint l) (listHint r) false).2 = some u →
      u = countUntilNone
        (AlternatingNoRemainder.run ⟨l, r, false⟩ (2 * (l.length + r.length) + 2))) ∧
    (∀ u, (allSizeHint (listHint l) (listHint r)).2 = some u →
      u = countUntilNone
        (AlternatingAll.run ⟨l, r, Next.I⟩ (2 * (l.length + r.length) + 2))) := by
  refine ⟨?_, ?_, ?_⟩
  · intro u hu
    have hform : (altSizeHint (listHint l) (listHint r) true).2 =
        checked (min_and_1 l.length r.length false) := rfl
    rw [hform, min_and_1_eq] at hu
    have hue := checked_some _ _ _ hu
    rw [altCountUntilNone l r, hue]
    rcases lt_trichotomy l.length r.length with h | h | h
    · simp [h, Nat.lt_asymm h]
    · simp [h]
    · simp [h, Nat.lt_asymm h]
  · intro u hu
    have hform : (anrSizeHint (listHint l) (listHint r) false).2 =
        checked (min_and_1 l.length r.length false) := rfl
    rw [hform, min_and_1_eq] at hu
    have hue := checked_some _ _ _ hu
    rw [anrCountUntilNone l r, hue]
    rcases lt_trichotomy l.length r.length with h | h | h
    · simp [h, Nat.lt_asymm h]
    · simp [h]
    · simp [h, Nat.lt_asymm h]
  · intro u hu
    have hform : (allSizeHint (listHint l) (listHint r)).2 =
        checkedAdd l.length r.length := rfl
    rw [hform] at hu
    have hue := checkedAdd_some _ _ _ hu
    rw [allCountUntilNone l r, hue]

/-- C8 witness at `l = [1, 2, 3]`, `r = [4, 5]` (reported maximum 5 for
the first and third variant shapes shown, each matching the realized
count). -/
theorem size_hint_upper_matches_count_witness :
    (altSizeHint (listHint ([1, 2, 3] : List Nat)) (listHint [4, 5]) true).2 = some 5 ∧
    (5 : Nat) = countUntilNone (Alternating.run ⟨[1, 2, 3], [4, 5], true⟩
      (2 * (([1, 2, 3] : List Nat).length + [4, 5].length) + 2)) ∧
    (anrSizeHint (listHint ([1, 2, 3] : List Nat)) (listHint [4, 5]) false).2 = some 5 ∧
    (5 : Nat) = countUntilNone (AlternatingNoRemainder.run ⟨[1, 2, 3], [4, 5], false⟩
      (2 * (([1, 2, 3] : List Nat).length + [4, 5].length) + 2)) ∧
    (allSizeHint (listHint ([1, 2, 3] : List Nat)) (listHint [4, 5])).2 = some 5 ∧
    (5 : Nat) = countUntilNone (AlternatingAll.run ⟨[1, 2, 3], [4, 5], Next.I⟩
      (2 * (([1, 2, 3] : List Nat).length + [4, 5].length) + 2)) :=
  ⟨by decide,
   (size_hint_upper_matches_count [1, 2, 3] [4, 5]).1 5 (by decide),
   by decide,
   (size_hint_upper_matches_count [1, 2, 3] [4, 5]).2.1 5 (by decide),
   by decide,
   (size_hint_upper_matches_count [1, 2, 3] [4, 5]).2.2 5 (by decide)⟩
